import Mathlib

set_option maxRecDepth 40000

/-
Verification development for the snowflake_fuzzy_match repository
(src/external_app.py).  The Python source is shallowly embedded below:

  * the text normalizers normalize_text and normalize_address
    (external_app.py lines 134-167), including the regex operations they
    perform, modelled over the ASCII fragment that the regexes use
    (character class word = [A-Za-z0-9_], whitespace = Python str.strip
    whitespace);
  * the state canonicalizer convert_state_to_abbrev and STATE_MAPPING
    (lines 102-126);
  * the similarity scorer simple_similarity (lines 128-132), which calls
    difflib.SequenceMatcher(None, a.lower(), b.lower()).ratio(); the
    difflib algorithm (b2j with autojunk popularity filtering,
    find_longest_match dynamic programming plus the two non-junk
    extension loops, recursive matching-block decomposition, and
    2*M/T scoring) is embedded in full;
  * the processing loop run by the Start Processing button
    (lines 256-595): partitioning by state_abbrev, the per-state CRM
    fetch with its try/except and empty-result handling, the nested
    cancellation checks of st.session_state.processing, candidate
    emission under the two thresholds, and the final guarded store
    into st.session_state.matches.

Python floats are modelled by rationals; a raised-and-caught fetch
failure is modelled by the fetch function returning none; the
cooperative cancellation flag st.session_state.processing, which a
cancel press clears once and which is read at the documented check
points, is modelled by a budget t: the k-th read of the flag yields
true exactly when k < t.
-/

namespace SnowMatch

/-! ### Python string primitives (ASCII model) -/

/-- Python whitespace, the class matched by the regex class backslash-s
and stripped by str.strip: space, tab, newline, carriage return,
vertical tab, form feed. -/
def isPySpace (c : Char) : Bool :=
  c == ' ' || c == '\t' || c == '\n' || c == '\r' || c == '\x0b' || c == '\x0c'

/-- Python word characters (regex class backslash-w), ASCII fragment:
letters, digits, underscore. -/
def isWordChar (c : Char) : Bool :=
  c.isAlpha || c.isDigit || c == '_'

/-- ASCII model of Python str.upper, one character. -/
def pyUpperChar (c : Char) : Char :=
  if c = 'a' then 'A' else if c = 'b' then 'B' else if c = 'c' then 'C'
  else if c = 'd' then 'D' else if c = 'e' then 'E' else if c = 'f' then 'F'
  else if c = 'g' then 'G' else if c = 'h' then 'H' else if c = 'i' then 'I'
  else if c = 'j' then 'J' else if c = 'k' then 'K' else if c = 'l' then 'L'
  else if c = 'm' then 'M' else if c = 'n' then 'N' else if c = 'o' then 'O'
  else if c = 'p' then 'P' else if c = 'q' then 'Q' else if c = 'r' then 'R'
  else if c = 's' then 'S' else if c = 't' then 'T' else if c = 'u' then 'U'
  else if c = 'v' then 'V' else if c = 'w' then 'W' else if c = 'x' then 'X'
  else if c = 'y' then 'Y' else if c = 'z' then 'Z' else c

/-- ASCII model of Python str.lower, one character. -/
def pyLowerChar (c : Char) : Char :=
  if c = 'A' then 'a' else if c = 'B' then 'b' else if c = 'C' then 'c'
  else if c = 'D' then 'd' else if c = 'E' then 'e' else if c = 'F' then 'f'
  else if c = 'G' then 'g' else if c = 'H' then 'h' else if c = 'I' then 'i'
  else if c = 'J' then 'j' else if c = 'K' then 'k' else if c = 'L' then 'l'
  else if c = 'M' then 'm' else if c = 'N' then 'n' else if c = 'O' then 'o'
  else if c = 'P' then 'p' else if c = 'Q' then 'q' else if c = 'R' then 'r'
  else if c = 'S' then 's' else if c = 'T' then 't' else if c = 'U' then 'u'
  else if c = 'V' then 'v' else if c = 'W' then 'w' else if c = 'X' then 'x'
  else if c = 'Y' then 'y' else if c = 'Z' then 'z' else c

/-- Python str.upper on a character list. -/
def pyUpper (l : List Char) : List Char := l.map pyUpperChar

/-- Python str.lower on a character list. -/
def pyLower (l : List Char) : List Char := l.map pyLowerChar

/-- Drop trailing Python whitespace. -/
def dropTrail (l : List Char) : List Char :=
  (l.reverse.dropWhile isPySpace).reverse

/-- Python str.strip: drop leading and trailing whitespace. -/
def pyStrip (l : List Char) : List Char :=
  dropTrail (l.dropWhile isPySpace)

/-- Worker for collapseWS; the flag records whether the previous
character was part of a whitespace run already replaced. -/
def collapseAux : Bool → List Char → List Char
  | _, [] => []
  | inRun, c :: rest =>
    if isPySpace c then
      if inRun then collapseAux true rest else ' ' :: collapseAux true rest
    else c :: collapseAux false rest

/-- re.sub of one-or-more whitespace by a single space: every maximal
whitespace run becomes one space. -/
def collapseWS (l : List Char) : List Char := collapseAux false l

/-- re.sub deleting every character that is neither a word character nor
whitespace (the punctuation-stripping substitution). -/
def stripPunct (l : List Char) : List Char :=
  l.filter (fun c => isWordChar c || isPySpace c)

/-! ### Address abbreviation substitutions (external_app.py 149-162)

Each pattern is either a word-boundary-delimited literal word, or a
literal word followed by a period anchored at the end of the string.
Every pattern word starts and ends with a word character, so the word
boundary before a match is the position after a non-word character (or
the start of the string), and the boundary after is before a non-word
character (or the end).  re.sub finds the non-overlapping matches on
the original string left to right and replaces them all. -/

/-- One substitution rule: a word-boundary pattern word, whether it is
the end-anchored word-plus-period form, and the replacement. -/
structure SubRule where
  pat : List Char
  endDot : Bool
  repl : List Char
deriving DecidableEq

/-- Whole-word replacement scan.  The Bool argument tells whether the
previous character of the original string was a word character (no word
boundary at this position).  The fuel argument makes the recursion
structural; a match consumes the whole nonempty pattern, so fuel equal
to the length of the scanned string never runs out. -/
def subWordF (w r : List Char) : Nat → Bool → List Char → List Char
  | 0, _, l => l
  | _ + 1, _, [] => []
  | fuel + 1, prevW, c :: cs =>
    if w ≠ [] ∧ prevW = false ∧ w.isPrefixOf (c :: cs) = true ∧
        (match (c :: cs).drop w.length with
         | [] => true
         | d :: _ => !isWordChar d) = true then
      r ++ subWordF w r fuel (isWordChar (w.getLastD ' ')) ((c :: cs).drop w.length)
    else
      c :: subWordF w r fuel (isWordChar c) cs

/-- re.sub of a whole-word pattern by its replacement. -/
def subWordAll (w r s : List Char) : List Char := subWordF w r s.length false s

/-- re.sub of an end-anchored word-plus-period pattern: at most one
match, at the very end of the string, with a word boundary before it. -/
def subEndDot (w r s : List Char) : List Char :=
  let wp := w ++ ['.']
  if wp.isSuffixOf s = true ∧
      (match (s.take (s.length - wp.length)).getLast? with
       | none => true
       | some d => !isWordChar d) = true then
    s.take (s.length - wp.length) ++ r
  else s

/-- Apply one substitution rule. -/
def applyRule (s : List Char) (ru : SubRule) : List Char :=
  if ru.endDot then subEndDot ru.pat ru.repl s else subWordAll ru.pat ru.repl s

/-- The address_abbreviations table in its Python dict iteration order
(insertion order; the duplicated ST-period key keeps its first
position). -/
def addressRules : List SubRule :=
  [ ⟨"STREET".data, false, "ST".data⟩, ⟨"ST".data, true, "ST".data⟩,
    ⟨"DRIVE".data, false, "DR".data⟩, ⟨"DR".data, true, "DR".data⟩,
    ⟨"WAY".data, false, "WY".data⟩, ⟨"WY".data, true, "WY".data⟩,
    ⟨"HIGHWAY".data, false, "HWY".data⟩, ⟨"HWY".data, true, "HWY".data⟩,
    ⟨"COURT".data, false, "CT".data⟩, ⟨"CT".data, true, "CT".data⟩,
    ⟨"ROAD".data, false, "RD".data⟩, ⟨"RD".data, true, "RD".data⟩,
    ⟨"AVENUE".data, false, "AVE".data⟩, ⟨"AVE".data, true, "AVE".data⟩,
    ⟨"BOULEVARD".data, false, "BLVD".data⟩, ⟨"BLVD".data, true, "BLVD".data⟩,
    ⟨"LANE".data, false, "LN".data⟩, ⟨"LN".data, true, "LN".data⟩,
    ⟨"PLACE".data, false, "PL".data⟩, ⟨"PL".data, true, "PL".data⟩,
    ⟨"CIRCLE".data, false, "CIR".data⟩, ⟨"CIR".data, true, "CIR".data⟩,
    ⟨"SQUARE".data, false, "SQ".data⟩, ⟨"SQ".data, true, "SQ".data⟩,
    ⟨"NORTH".data, false, "N".data⟩, ⟨"N".data, true, "N".data⟩,
    ⟨"SOUTH".data, false, "S".data⟩, ⟨"S".data, true, "S".data⟩,
    ⟨"EAST".data, false, "E".data⟩, ⟨"E".data, true, "E".data⟩,
    ⟨"WEST".data, false, "W".data⟩, ⟨"W".data, true, "W".data⟩,
    ⟨"SAINT".data, false, "ST".data⟩ ]

/-! ### The two normalizers (external_app.py 134-167) -/

/-- normalize_text: falsy input gives the empty string; otherwise
uppercase, strip, collapse whitespace runs, then delete punctuation.
No abbreviation substitution and no whitespace re-collapse afterwards. -/
def normalize_text (s : String) : String :=
  if s = "" then ""
  else String.mk (stripPunct (collapseWS (pyStrip (pyUpper s.data))))

/-- normalize_address: falsy input gives the empty string; otherwise
uppercase, strip, collapse whitespace, apply the abbreviation rules in
order, delete punctuation, collapse whitespace again and strip again. -/
def normalize_address (s : String) : String :=
  if s = "" then ""
  else
    String.mk (pyStrip (collapseWS (stripPunct
      (addressRules.foldl applyRule (collapseWS (pyStrip (pyUpper s.data)))))))

/-! ### difflib.SequenceMatcher (Python standard library)

simple_similarity (external_app.py 128-132) returns
SequenceMatcher(None, str1.lower(), str2.lower()).ratio().  The
algorithm: b2j maps each character of b to its positions, excluding
"popular" characters when autojunk applies (b of length at least 200,
character occurring more than len(b)/100 + 1 times); find_longest_match
runs a row dynamic program over those positions and then extends the
best block over equal non-junk characters on both ends (the junk set is
empty here, so the two junk extension loops never run and are omitted);
the matching blocks are obtained by recursing on both sides of the
longest block, and the score is twice their total size divided by the
total length of the two strings. -/

/-- Is character c "popular" in b (autojunk): b has length at least 200
and c occurs more than len(b)/100 + 1 times.  Popular characters are
removed from b2j. -/
def bpop (b : List Char) (c : Char) : Bool :=
  decide (200 ≤ b.length) && decide (b.length / 100 + 1 < b.count c)

/-- Does position j of b participate in row i of the dynamic program:
j is inside the window, b at j equals a at i, and that character is not
popular (that is, j appears in b2j of a at i). -/
def dcondB (a b : List Char) (blo bhi i j : Nat) : Bool :=
  decide (blo ≤ j) && decide (j < bhi) && a[i]?.isSome &&
    decide (a[i]? = b[j]?) && !(bpop b (b.getD j 'a'))

/-- The run length expression the row loop assigns:
j2len.get(j-1, 0) + 1 over the previous row function. -/
def kvalOf (j2 : Nat → Nat) (j : Nat) : Nat :=
  (if j = 0 then 0 else j2 (j - 1)) + 1

/-- The new j2len function after processing row i: positions in row i
carry the extended diagonal run, all other positions read 0 (absent). -/
def dpRow (a b : List Char) (blo bhi i : Nat) (j2 : Nat → Nat) : Nat → Nat :=
  fun j => if dcondB a b blo bhi i j then kvalOf j2 j else 0

/-- The best-block update performed by row i: scanning the b positions
of row i in ascending order, replace the best block whenever the run
ending at (i, j) is strictly longer.  Folding over all j below bhi with
the participation condition inside is the same iteration as folding
over the ascending b2j list with its continue and break. -/
def rowBest (a b : List Char) (blo bhi i : Nat) (j2 : Nat → Nat)
    (best : Nat × Nat × Nat) : Nat × Nat × Nat :=
  (List.range bhi).foldl
    (fun acc j =>
      if dcondB a b blo bhi i j then
        if acc.2.2 < kvalOf j2 j then (i + 1 - kvalOf j2 j, j + 1 - kvalOf j2 j, kvalOf j2 j)
        else acc
      else acc)
    best

/-- The dynamic program of find_longest_match after processing t rows
(rows alo, alo+1, ..., alo+t-1): the j2len function of the last
processed row, and the best block so far (initially (alo, blo, 0)). -/
def dpRun (a b : List Char) (alo blo bhi : Nat) : Nat → ((Nat → Nat) × (Nat × Nat × Nat))
  | 0 => (fun _ => 0, (alo, blo, 0))
  | t + 1 =>
    let p := dpRun a b alo blo bhi t
    (dpRow a b blo bhi (alo + t) p.1, rowBest a b blo bhi (alo + t) p.1 p.2)

/-- First extension loop of find_longest_match: while the block can
grow one character to the left inside the window with equal characters
(the junk test is vacuous), grow it.  The loop guard requires alo < bi,
so recursion on bi is structural and a return at bi = 0 only happens
when the guard is false there anyway. -/
def extendBack (a b : List Char) (alo blo : Nat) :
    Nat → Nat → Nat → Nat × Nat × Nat
  | 0, bj, k => (0, bj, k)
  | bi + 1, bj, k =>
    if alo < bi + 1 ∧ blo < bj ∧ a[bi]? = b[bj - 1]? then
      extendBack a b alo blo bi (bj - 1) (k + 1)
    else (bi + 1, bj, k)

/-- Worker for the second extension loop, structural on the remaining
room ahi - (bi + k); the guard bi + k < ahi fails exactly when that
room is zero, so the fuel is exact. -/
def extendFwdF (a b : List Char) (ahi bhi bi bj : Nat) : Nat → Nat → Nat
  | 0, k => k
  | fuel + 1, k =>
    if bi + k < ahi ∧ bj + k < bhi ∧ a[bi + k]? = b[bj + k]? then
      extendFwdF a b ahi bhi bi bj fuel (k + 1)
    else k

/-- Second extension loop of find_longest_match: while the block can
grow one character to the right inside the window with equal
characters, grow it. -/
def extendFwd (a b : List Char) (ahi bhi bi bj k : Nat) : Nat :=
  extendFwdF a b ahi bhi bi bj (ahi - (bi + k)) k

/-- find_longest_match on the window a[alo:ahi] x b[blo:bhi]. -/
def findLongestMatch (a b : List Char) (alo ahi blo bhi : Nat) : Nat × Nat × Nat :=
  let best := (dpRun a b alo blo bhi (ahi - alo)).2
  let back := extendBack a b alo blo best.1 best.2.1 best.2.2
  (back.1, back.2.1, extendFwd a b ahi bhi back.1 back.2.1 back.2.2)

/-- Total size of the matching blocks of get_matching_blocks on a
window, computed by the same recursion (find the longest block, recurse
left of it and right of it); the queue order does not change the sum.
The fuel argument bounds the recursion depth; each recursive call
strictly shrinks the window total (by the block bounds established
below), so the fuel chosen in matchTotal never runs out. -/
def matchTotalF (a b : List Char) : Nat → Nat → Nat → Nat → Nat → Nat
  | 0, _, _, _, _ => 0
  | fuel + 1, alo, ahi, blo, bhi =>
    let m := findLongestMatch a b alo ahi blo bhi
    if m.2.2 = 0 then 0
    else
      m.2.2 +
        (if alo < m.1 ∧ blo < m.2.1 then matchTotalF a b fuel alo m.1 blo m.2.1 else 0) +
        (if m.1 + m.2.2 < ahi ∧ m.2.1 + m.2.2 < bhi then
          matchTotalF a b fuel (m.1 + m.2.2) ahi (m.2.1 + m.2.2) bhi else 0)

/-- Total matched size over a window, with adequate fuel. -/
def matchTotal (a b : List Char) (alo ahi blo bhi : Nat) : Nat :=
  matchTotalF a b ((ahi - alo) + (bhi - blo)) alo ahi blo bhi

/-- ratio(): twice the total matched size over the total length
(_calculate_ratio; a zero total length gives 1.0, though
simple_similarity never reaches that branch). -/
def ratioQ (a b : List Char) : ℚ :=
  if a.length + b.length = 0 then 1
  else 2 * (matchTotal a b 0 a.length 0 b.length : ℚ) / (a.length + b.length)

/-- simple_similarity (external_app.py 128-132): 0.0 when either
argument is falsy, otherwise the SequenceMatcher ratio of the two
lowercased strings. -/
def simple_similarity (s1 s2 : String) : ℚ :=
  if s1 = "" || s2 = "" then 0
  else ratioQ (pyLower s1.data) (pyLower s2.data)

/-! ### State canonicalizer (external_app.py 102-126) -/

/-- STATE_MAPPING: full state name (uppercase) to two-letter code, the
50 states plus the District of Columbia. -/
def STATE_MAPPING : List (String × String) :=
  [ ("ALABAMA", "AL"), ("ALASKA", "AK"), ("ARIZONA", "AZ"), ("ARKANSAS", "AR"),
    ("CALIFORNIA", "CA"), ("COLORADO", "CO"), ("CONNECTICUT", "CT"),
    ("DELAWARE", "DE"), ("FLORIDA", "FL"), ("GEORGIA", "GA"), ("HAWAII", "HI"),
    ("IDAHO", "ID"), ("ILLINOIS", "IL"), ("INDIANA", "IN"), ("IOWA", "IA"),
    ("KANSAS", "KS"), ("KENTUCKY", "KY"), ("LOUISIANA", "LA"), ("MAINE", "ME"),
    ("MARYLAND", "MD"), ("MASSACHUSETTS", "MA"), ("MICHIGAN", "MI"),
    ("MINNESOTA", "MN"), ("MISSISSIPPI", "MS"), ("MISSOURI", "MO"),
    ("MONTANA", "MT"), ("NEBRASKA", "NE"), ("NEVADA", "NV"),
    ("NEW HAMPSHIRE", "NH"), ("NEW JERSEY", "NJ"), ("NEW MEXICO", "NM"),
    ("NEW YORK", "NY"), ("NORTH CAROLINA", "NC"), ("NORTH DAKOTA", "ND"),
    ("OHIO", "OH"), ("OKLAHOMA", "OK"), ("OREGON", "OR"),
    ("PENNSYLVANIA", "PA"), ("RHODE ISLAND", "RI"), ("SOUTH CAROLINA", "SC"),
    ("SOUTH DAKOTA", "SD"), ("TENNESSEE", "TN"), ("TEXAS", "TX"),
    ("UTAH", "UT"), ("VERMONT", "VT"), ("VIRGINIA", "VA"),
    ("WASHINGTON", "WA"), ("WEST VIRGINIA", "WV"), ("WISCONSIN", "WI"),
    ("WYOMING", "WY"), ("DISTRICT OF COLUMBIA", "DC") ]

/-- The uppercased, stripped form used as the lookup key. -/
def stateClean (s : String) : String :=
  String.mk (pyStrip (pyUpper s.data))

/-- convert_state_to_abbrev: falsy input is returned unchanged; a value
of length 2 after uppercasing and stripping is returned as is, without
validation; otherwise the mapping is consulted, unrecognized names
passing through. -/
def convert_state_to_abbrev (s : String) : String :=
  if s = "" then s
  else
    let u := stateClean s
    if u.length = 2 then u
    else (STATE_MAPPING.lookup u).getD u

/-! ### The match engine (external_app.py 256-595)

An uploaded row carries the six required columns; preprocessing
(lines 237-239) adds state_abbrev and the two normalized fields.  A CRM
record carries the two fields the matcher reads plus the many
descriptive columns, modelled as an opaque attribute list that is
carried through to the match unchanged; lines 412-413 add its
normalized fields.  A match candidate (the dict built at lines 434-565)
carries the uploaded row, the CRM record and the three scores. -/

structure URow where
  companyName : String
  companyAddress : String
  companyCity : String
  companyState : String
  companyZipCode : String
deriving DecidableEq

structure PRow where
  companyName : String
  companyAddress : String
  companyCity : String
  companyState : String
  companyZipCode : String
  state_abbrev : String
  normalized_address : String
  normalized_company_name : String
deriving DecidableEq

/-- Uploaded-data preprocessing, lines 237-239. -/
def preprocess (r : URow) : PRow :=
  { companyName := r.companyName
    companyAddress := r.companyAddress
    companyCity := r.companyCity
    companyState := r.companyState
    companyZipCode := r.companyZipCode
    state_abbrev := convert_state_to_abbrev r.companyState
    normalized_address := normalize_address r.companyAddress
    normalized_company_name := normalize_text r.companyName }

structure RRef where
  companyName : String
  companyAddress : String
  attrs : List (String × String)
deriving DecidableEq

structure NRef where
  companyName : String
  companyAddress : String
  attrs : List (String × String)
  normalized_company_name : String
  normalized_address : String
deriving DecidableEq

/-- CRM preprocessing, lines 412-413. -/
def addNorm (r : RRef) : NRef :=
  { companyName := r.companyName
    companyAddress := r.companyAddress
    attrs := r.attrs
    normalized_company_name := normalize_text r.companyName
    normalized_address := normalize_address r.companyAddress }

structure Cand where
  up : PRow
  crm : NRef
  name_sim : ℚ
  address_sim : ℚ
  combined : ℚ
deriving DecidableEq

/-- The match dict built at lines 434-565: the two scores are the
similarities of the normalized fields, the combined score their mean. -/
def mkCand (u : PRow) (r : NRef) : Cand :=
  { up := u
    crm := r
    name_sim := simple_similarity u.normalized_company_name r.normalized_company_name
    address_sim := simple_similarity u.normalized_address r.normalized_address
    combined := (simple_similarity u.normalized_company_name r.normalized_company_name +
      simple_similarity u.normalized_address r.normalized_address) / 2 }

/-- The inner CRM scan for one uploaded row (lines 428-566): a
candidate is appended exactly when both similarities reach their
thresholds. -/
def scanRow (t1 t2 : ℚ) (u : PRow) (crm : List NRef) : List Cand :=
  crm.filterMap (fun r =>
    if t1 ≤ simple_similarity u.normalized_company_name r.normalized_company_name ∧
        t2 ≤ simple_similarity u.normalized_address r.normalized_address then
      some (mkCand u r)
    else none)

/-- The per-row loop of one state partition (lines 416-576).  The
budget r models the cancellation flag: a flag read returns true exactly
while the budget is positive, and each read consumes one unit; once the
user has cancelled, every later read returns false, which the zero
budget represents.  A false read breaks out of the loop. -/
def rowsLoop (t1 t2 : ℚ) (crm : List NRef) :
    List PRow → Nat → List Cand → List Cand × Nat
  | [], r, acc => (acc, r)
  | u :: us, r, acc =>
    if r = 0 then (acc, 0)
    else rowsLoop t1 t2 crm us (r - 1) (acc ++ scanRow t1 t2 u crm)

/-- The per-state loop (lines 286-585): check the flag, fetch the CRM
partition (none models a raised-and-caught failure, the except at line
583; an empty result hits the continue at line 407), normalize it and
scan the uploaded rows of this state. -/
def statesLoop (t1 t2 : ℚ) (df : List PRow) (fetch : String → Option (List RRef)) :
    List String → Nat → List Cand → List Cand × Nat
  | [], r, acc => (acc, r)
  | s :: ss, r, acc =>
    if r = 0 then (acc, 0)
    else
      match fetch s with
      | none => statesLoop t1 t2 df fetch ss (r - 1) acc
      | some refs =>
        if refs.isEmpty then statesLoop t1 t2 df fetch ss (r - 1) acc
        else
          let p := rowsLoop t1 t2 (refs.map addNorm)
            (df.filter (fun u => u.state_abbrev = s)) (r - 1) acc
          statesLoop t1 t2 df fetch ss p.2 p.1

/-- Worker for uniqueFirst, structural on a fuel that the shrinking
list (filtering only removes elements) never exhausts. -/
def uniqueFirstF : Nat → List String → List String
  | 0, _ => []
  | _ + 1, [] => []
  | fuel + 1, s :: rest => s :: uniqueFirstF fuel (rest.filter (fun x => x ≠ s))

/-- pandas unique: the distinct values in order of first occurrence. -/
def uniqueFirst (l : List String) : List String := uniqueFirstF l.length l

/-- Outcome of one press of Start Processing: stored is
st.session_state.matches after the run (set to the empty list at line
258, overwritten at line 591 only when the final flag read at line 587
is true), accum is the local matches list at the end of the loop. -/
structure RunOutcome where
  stored : List Cand
  accum : List Cand
deriving DecidableEq

/-- The processing run over already-preprocessed rows. -/
def processRun (df : List PRow) (fetch : String → Option (List RRef))
    (t1 t2 : ℚ) (t : Nat) : RunOutcome :=
  let states := uniqueFirst (df.map (fun u => u.state_abbrev))
  let p := statesLoop t1 t2 df fetch states t []
  { stored := if p.2 = 0 then [] else p.1, accum := p.1 }

/-- The full run from the uploaded file: preprocessing then the
processing loop. -/
def processAll (raws : List URow) (fetch : String → Option (List RRef))
    (t1 t2 : ℚ) (t : Nat) : RunOutcome :=
  processRun (raws.map preprocess) fetch t1 t2 t

/-- The candidates one state partition contributes when it is processed
without interruption: none on fetch failure or empty fetch, otherwise
all candidates of its uploaded rows in order. -/
def partCands (t1 t2 : ℚ) (df : List PRow) (fetch : String → Option (List RRef))
    (s : String) : List Cand :=
  match fetch s with
  | none => []
  | some refs =>
    if refs.isEmpty then []
    else ((df.filter (fun u => u.state_abbrev = s)).map
      (fun u => scanRow t1 t2 u (refs.map addNorm))).flatten

/-- Number of cancellation-flag reads one state partition performs when
processed without interruption: one at the top of the state loop, plus
one per uploaded row of the partition when the fetch produced data. -/
def checksOf (df : List PRow) (fetch : String → Option (List RRef)) (s : String) : Nat :=
  1 + match fetch s with
      | none => 0
      | some refs =>
        if refs.isEmpty then 0
        else (df.filter (fun u => u.state_abbrev = s)).length

/-- Total flag reads of a list of partitions. -/
def checksSum (df : List PRow) (fetch : String → Option (List RRef)) :
    List String → Nat
  | [] => 0
  | s :: ss => checksOf df fetch s + checksSum df fetch ss

/-! ### Proof infrastructure definitions -/

/-- Invariant of the best block through the dynamic program: either it
is still the initial (alo, blo, 0), or it is a nonempty block inside
the window of the processed rows. -/
def dpBestInv (alo blo bhi t : Nat) (best : Nat × Nat × Nat) : Prop :=
  best = (alo, blo, 0) ∨
    (1 ≤ best.2.2 ∧ alo ≤ best.1 ∧ blo ≤ best.2.1 ∧
      best.1 + best.2.2 ≤ alo + t ∧ best.2.1 + best.2.2 ≤ bhi)

/-- In the reflexive runs used for simple_similarity of a string with
itself the full window is compared; diagRow s t is the j2len function
after t rows of that dynamic program. -/
def diagRow (s : List Char) (t : Nat) : Nat → Nat :=
  (dpRun s s 0 0 s.length t).1

/-- The best block after t rows of the reflexive dynamic program. -/
def diagBest (s : List Char) (t : Nat) : Nat × Nat × Nat :=
  (dpRun s s 0 0 s.length t).2

/-- The diagonal run length ending at row t, column t. -/
def dval (s : List Char) (t : Nat) : Nat := diagRow s (t + 1) t

/-- Largest diagonal run ending at a row below t. -/
def maxDiag (s : List Char) : Nat → Nat
  | 0 => 0
  | t + 1 => max (maxDiag s t) (dval s t)

/-! ### Concrete test fixtures

A small three-state upload and two reference sources: fetchA answers
every partition (only CA has data), fetchB fails for every partition
except CA (modelling the caught per-state exception). -/

def uCA : URow := ⟨"Ab", "Cd", "City", "CA", "1"⟩

def uTX : URow := ⟨"Ab", "Cd", "City", "TX", "2"⟩

def uNY : URow := ⟨"Ab", "Cd", "City", "NY", "3"⟩

def refCA : RRef := ⟨"Ab", "Cd", [("systemId", "77")]⟩

def fetchA : String → Option (List RRef) :=
  fun s => if s = "CA" then some [refCA] else some []

def fetchB : String → Option (List RRef) :=
  fun s => if s = "CA" then some [refCA] else none

def rawsA : List URow := [uCA, uTX, uNY]

def rawsB : List URow := [uTX, uCA]

/-! ## Generic fold helpers -/

theorem foldl_fixed {α β : Type} (f : α → β → α) (l : List β) (a : α)
    (h : ∀ x ∈ l, f a x = a) : l.foldl f a = a := by
  induction l with
  | nil => rfl
  | cons x xs ih =>
    rw [List.foldl_cons, h x (List.mem_cons_self x xs)]
    exact ih (fun y hy => h y (List.mem_cons_of_mem x hy))

theorem foldl_preserve {α β : Type} (P : α → Prop) (f : α → β → α) (l : List β)
    (a : α) (h0 : P a) (h : ∀ acc x, x ∈ l → P acc → P (f acc x)) :
    P (l.foldl f a) :=
  List.foldlRecOn l f a h0 (fun acc hacc x hx => h acc x hx hacc)

/-! ## SequenceMatcher: bounds of the dynamic program -/

theorem dcondB_eq_true {a b : List Char} {blo bhi i j : Nat} :
    dcondB a b blo bhi i j = true ↔
      blo ≤ j ∧ j < bhi ∧ a[i]?.isSome = true ∧ a[i]? = b[j]? ∧
        bpop b (b.getD j 'a') = false := by
  simp only [dcondB, Bool.and_eq_true, decide_eq_true_eq, Bool.not_eq_true']
  tauto

theorem dpRun_fst_le (a b : List Char) (alo blo bhi : Nat) :
    ∀ t j, (dpRun a b alo blo bhi t).1 j ≤ t ∧
      (dpRun a b alo blo bhi t).1 j ≤ j + 1 - blo := by
  intro t
  induction t with
  | zero => intro j; simp [dpRun]
  | succ t ih =>
    intro j
    simp only [dpRun, dpRow]
    split
    · next hcond =>
      rcases dcondB_eq_true.mp hcond with ⟨hblo, hbhi, -, -, -⟩
      have h1 := (ih (j - 1)).1
      have h2 := (ih (j - 1)).2
      simp only [kvalOf]
      split
      · next hj => omega
      · next hj => omega
    · omega

theorem dpRun_best_inv (a b : List Char) (alo blo bhi : Nat) :
    ∀ t, dpBestInv alo blo bhi t (dpRun a b alo blo bhi t).2 := by
  intro t
  induction t with
  | zero => left; simp [dpRun]
  | succ t ih =>
    simp only [dpRun, rowBest]
    apply foldl_preserve (P := dpBestInv alo blo bhi (t + 1))
    · rcases ih with h | h
      · left; exact h
      · right; exact ⟨h.1, h.2.1, h.2.2.1, by omega, h.2.2.2.2⟩
    · intro acc j hj hacc
      split
      · next hcond =>
        split
        · next hlt =>
          rcases dcondB_eq_true.mp hcond with ⟨hblo, hbhi, -, -, -⟩
          have h1 := (dpRun_fst_le a b alo blo bhi t (j - 1)).1
          have h2 := (dpRun_fst_le a b alo blo bhi t (j - 1)).2
          right
          simp only [kvalOf] at *
          constructor
          · split <;> omega
          refine ⟨?_, ?_, ?_, ?_⟩ <;> (split <;> omega)
        · exact hacc
      · exact hacc

theorem extendBack_spec (a b : List Char) (alo blo : Nat) :
    ∀ bi bj k, alo ≤ bi → blo ≤ bj →
      ∃ bi' bj' k', extendBack a b alo blo bi bj k = (bi', bj', k') ∧
        alo ≤ bi' ∧ blo ≤ bj' ∧ bi' + k' = bi + k ∧ bj' + k' = bj + k ∧ k ≤ k' := by
  intro bi
  induction bi with
  | zero =>
    intro bj k h1 h2
    exact ⟨0, bj, k, rfl, h1, h2, rfl, rfl, le_refl k⟩
  | succ bi ih =>
    intro bj k h1 h2
    rw [extendBack]
    split
    · next hguard =>
      obtain ⟨hg1, hg2, -⟩ := hguard
      obtain ⟨bi', bj', k', heq, ha, hb, hs1, hs2, hk⟩ := ih (bj - 1) (k + 1) (by omega) (by omega)
      exact ⟨bi', bj', k', heq, ha, hb, by omega, by omega, by omega⟩
    · exact ⟨bi + 1, bj, k, rfl, h1, h2, rfl, rfl, le_refl k⟩

theorem extendFwdF_spec (a b : List Char) (ahi bhi bi bj : Nat) :
    ∀ fuel k, k ≤ extendFwdF a b ahi bhi bi bj fuel k ∧
      (extendFwdF a b ahi bhi bi bj fuel k = k ∨
        (bi + extendFwdF a b ahi bhi bi bj fuel k ≤ ahi ∧
         bj + extendFwdF a b ahi bhi bi bj fuel k ≤ bhi)) := by
  intro fuel
  induction fuel with
  | zero => intro k; exact ⟨le_refl k, Or.inl rfl⟩
  | succ fuel ih =>
    intro k
    rw [extendFwdF]
    split
    · next hguard =>
      obtain ⟨hg1, hg2, -⟩ := hguard
      obtain ⟨hle, hcase⟩ := ih (k + 1)
      refine ⟨by omega, ?_⟩
      rcases hcase with h | h
      · exact Or.inr ⟨by omega, by omega⟩
      · exact Or.inr h
    · exact ⟨le_refl k, Or.inl rfl⟩

theorem flm_pos_bounds (a b : List Char) (alo ahi blo bhi bi bj k : Nat)
    (heq : findLongestMatch a b alo ahi blo bhi = (bi, bj, k)) (hk : 1 ≤ k) :
    alo ≤ bi ∧ blo ≤ bj ∧ bi + k ≤ ahi ∧ bj + k ≤ bhi := by
  have hinv := dpRun_best_inv a b alo blo bhi (ahi - alo)
  rw [findLongestMatch] at heq
  rcases hinv with hzero | hrich
  · rw [hzero] at heq
    obtain ⟨bi', bj', k', hEB, ha, hb, hs1, hs2, -⟩ :=
      extendBack_spec a b alo blo alo blo 0 (le_refl alo) (le_refl blo)
    have hbi' : bi' = alo := by omega
    have hbj' : bj' = blo := by omega
    have hk' : k' = 0 := by omega
    rw [hEB, hbi', hbj', hk'] at heq
    obtain ⟨hle, hcase⟩ := extendFwdF_spec a b ahi bhi alo blo (ahi - (alo + 0)) 0
    rcases hcase with h | h
    · exfalso
      have : k = 0 := by
        have hkk : k = extendFwdF a b ahi bhi alo blo (ahi - (alo + 0)) 0 := by
          have := congrArg (fun p => p.2.2) heq
          simpa [extendFwd] using this.symm
        omega
      omega
    · have h1 : bi = alo := by
        have := congrArg (fun p => p.1) heq; simpa using this.symm
      have h2 : bj = blo := by
        have := congrArg (fun p => p.2.1) heq; simpa using this.symm
      have h3 : k = extendFwdF a b ahi bhi alo blo (ahi - (alo + 0)) 0 := by
        have := congrArg (fun p => p.2.2) heq
        simpa [extendFwd] using this.symm
      refine ⟨by omega, by omega, by omega, by omega⟩
  · obtain ⟨hk0, ha0, hb0, hs0, ht0⟩ := hrich
    by_cases hwin : alo ≤ ahi
    · obtain ⟨bi', bj', k', hEB, ha, hb, hs1, hs2, hkle⟩ :=
        extendBack_spec a b alo blo (dpRun a b alo blo bhi (ahi - alo)).2.1
          (dpRun a b alo blo bhi (ahi - alo)).2.2.1
          (dpRun a b alo blo bhi (ahi - alo)).2.2.2 ha0 hb0
      rw [hEB] at heq
      have h1 : bi = bi' := by
        have := congrArg (fun p => p.1) heq; simpa using this.symm
      have h2 : bj = bj' := by
        have := congrArg (fun p => p.2.1) heq; simpa using this.symm
      have h3 : k = extendFwdF a b ahi bhi bi' bj' (ahi - (bi' + k')) k' := by
        have := congrArg (fun p => p.2.2) heq
        simpa [extendFwd] using this.symm
      obtain ⟨hle, hcase⟩ := extendFwdF_spec a b ahi bhi bi' bj' (ahi - (bi' + k')) k'
      rcases hcase with h | h
      · refine ⟨by omega, by omega, by omega, by omega⟩
      · refine ⟨by omega, by omega, by omega, by omega⟩
    · exfalso
      have hz : ahi - alo = 0 := by omega
      rw [hz] at hk0
      simp [dpRun] at hk0


theorem matchTotalF_le (a b : List Char) :
    ∀ fuel alo ahi blo bhi,
      matchTotalF a b fuel alo ahi blo bhi ≤ min (ahi - alo) (bhi - blo) := by
  intro fuel
  induction fuel with
  | zero => intro alo ahi blo bhi; simp [matchTotalF]
  | succ fuel ih =>
    intro alo ahi blo bhi
    rw [matchTotalF]
    by_cases hk : (findLongestMatch a b alo ahi blo bhi).2.2 = 0
    · simp [hk]
    · obtain ⟨ha, hb, hs1, hs2⟩ := flm_pos_bounds a b alo ahi blo bhi
        (findLongestMatch a b alo ahi blo bhi).1
        (findLongestMatch a b alo ahi blo bhi).2.1
        (findLongestMatch a b alo ahi blo bhi).2.2 rfl (by omega)
      simp only [if_neg hk]
      have hL := ih alo (findLongestMatch a b alo ahi blo bhi).1
        blo (findLongestMatch a b alo ahi blo bhi).2.1
      have hR := ih ((findLongestMatch a b alo ahi blo bhi).1 +
          (findLongestMatch a b alo ahi blo bhi).2.2) ahi
        ((findLongestMatch a b alo ahi blo bhi).2.1 +
          (findLongestMatch a b alo ahi blo bhi).2.2) bhi
      have hL1 := min_le_left ((findLongestMatch a b alo ahi blo bhi).1 - alo)
        ((findLongestMatch a b alo ahi blo bhi).2.1 - blo)
      have hL2 := min_le_right ((findLongestMatch a b alo ahi blo bhi).1 - alo)
        ((findLongestMatch a b alo ahi blo bhi).2.1 - blo)
      have hR1 := min_le_left (ahi - ((findLongestMatch a b alo ahi blo bhi).1 +
          (findLongestMatch a b alo ahi blo bhi).2.2))
        (bhi - ((findLongestMatch a b alo ahi blo bhi).2.1 +
          (findLongestMatch a b alo ahi blo bhi).2.2))
      have hR2 := min_le_right (ahi - ((findLongestMatch a b alo ahi blo bhi).1 +
          (findLongestMatch a b alo ahi blo bhi).2.2))
        (bhi - ((findLongestMatch a b alo ahi blo bhi).2.1 +
          (findLongestMatch a b alo ahi blo bhi).2.2))
      apply le_min
      · split <;> split <;> omega
      · split <;> split <;> omega

theorem matchTotal_le (a b : List Char) (alo ahi blo bhi : Nat) :
    matchTotal a b alo ahi blo bhi ≤ min (ahi - alo) (bhi - blo) :=
  matchTotalF_le a b ((ahi - alo) + (bhi - blo)) alo ahi blo bhi

/-! ## The similarity score is a rational in the unit interval -/

theorem ratioQ_nonneg (a b : List Char) : 0 ≤ ratioQ a b := by
  rw [ratioQ]
  split
  · norm_num
  · positivity

theorem ratioQ_le_one (a b : List Char) : ratioQ a b ≤ 1 := by
  rw [ratioQ]
  split
  · norm_num
  · next hlen =>
    have hpos : (0 : ℚ) < (a.length : ℚ) + (b.length : ℚ) := by
      have h0 : 0 < a.length + b.length := Nat.pos_of_ne_zero hlen
      exact_mod_cast h0
    rw [div_le_one hpos]
    have hm := matchTotal_le a b 0 a.length 0 b.length
    have h1 : matchTotal a b 0 a.length 0 b.length ≤ a.length := by
      have := min_le_left (a.length - 0) (b.length - 0); omega
    have h2 : matchTotal a b 0 a.length 0 b.length ≤ b.length := by
      have := min_le_right (a.length - 0) (b.length - 0); omega
    have : (matchTotal a b 0 a.length 0 b.length : ℚ) ≤ a.length := by exact_mod_cast h1
    have : (matchTotal a b 0 a.length 0 b.length : ℚ) ≤ b.length := by exact_mod_cast h2
    linarith

theorem simple_similarity_nonneg (s1 s2 : String) : 0 ≤ simple_similarity s1 s2 := by
  rw [simple_similarity]
  split
  · norm_num
  · exact ratioQ_nonneg _ _

theorem simple_similarity_le_one (s1 s2 : String) : simple_similarity s1 s2 ≤ 1 := by
  rw [simple_similarity]
  split
  · norm_num
  · exact ratioQ_le_one _ _

theorem simple_similarity_empty (s1 s2 : String) (h : s1 = "" ∨ s2 = "") :
    simple_similarity s1 s2 = 0 := by
  rw [simple_similarity, if_pos]
  rcases h with h | h <;> simp [h]

/-! ## Reflexivity of the scorer

When the two compared strings are the same string s, the dynamic
program always holds a best block that lies on the diagonal, because a
run ending at (i, j) forces an equal diagonal run ending at (j, j) for
j below i (already beaten in an earlier row) and at (i, i) (scanned at
column i before any longer column of the same row can win).  The two
extension loops then stretch the diagonal block to the whole string. -/

theorem diagRow_succ (s : List Char) (t : Nat) :
    diagRow s (t + 1) = dpRow s s 0 s.length t (diagRow s t) := by
  simp [diagRow, dpRun]

theorem diagBest_succ (s : List Char) (t : Nat) :
    diagBest s (t + 1) = rowBest s s 0 s.length t (diagRow s t) (diagBest s t) := by
  simp [diagBest, diagRow, dpRun]

theorem dcond_right {s : List Char} {i j : Nat}
    (h : dcondB s s 0 s.length i j = true) : dcondB s s 0 s.length j j = true := by
  rcases dcondB_eq_true.mp h with ⟨h1, h2, h3, h4, h5⟩
  rw [h4] at h3
  exact dcondB_eq_true.mpr ⟨Nat.zero_le j, h2, h3, rfl, h5⟩

theorem dcond_left {s : List Char} {i j : Nat}
    (h : dcondB s s 0 s.length i j = true) : dcondB s s 0 s.length i i = true := by
  rcases dcondB_eq_true.mp h with ⟨h1, h2, h3, h4, h5⟩
  have hi : i < s.length := by
    by_contra hcon
    rw [List.getElem?_eq_none_iff.mpr (by omega)] at h3
    simp at h3
  have hch : s.getD i 'a' = s.getD j 'a' := by
    rw [List.getD_eq_getElem?_getD, List.getD_eq_getElem?_getD, h4]
  exact dcondB_eq_true.mpr ⟨Nat.zero_le i, hi, h3, rfl, by rw [hch]; exact h5⟩

theorem kval_eq_row (s : List Char) (t j : Nat)
    (hc : dcondB s s 0 s.length t j = true) :
    kvalOf (diagRow s t) j = diagRow s (t + 1) j := by
  rw [diagRow_succ, dpRow, if_pos hc]

theorem diagRow_le_diag (s : List Char) :
    ∀ t j, diagRow s (t + 1) j ≤ diagRow s (t + 1) t := by
  intro t
  induction t with
  | zero =>
    intro j
    by_cases hc : dcondB s s 0 s.length 0 j = true
    · have h0 := dcond_left hc
      have hL : diagRow s 1 j = 1 := by
        simp [diagRow, dpRun, dpRow, hc, kvalOf]
      have hR : diagRow s 1 0 = 1 := by
        simp [diagRow, dpRun, dpRow, h0, kvalOf]
      rw [hL, hR]
    · have hL : diagRow s 1 j = 0 := by
        simp [diagRow, dpRun, dpRow, hc]
      rw [hL]
      exact Nat.zero_le _
  | succ t ih =>
    intro j
    by_cases hc : dcondB s s 0 s.length (t + 1) j = true
    · have hdiag := dcond_left hc
      have hL : diagRow s (t + 1 + 1) j =
          (if j = 0 then 0 else diagRow s (t + 1) (j - 1)) + 1 := by
        rw [diagRow_succ]
        simp only [dpRow, if_pos hc, kvalOf]
      have hR : diagRow s (t + 1 + 1) (t + 1) = diagRow s (t + 1) t + 1 := by
        rw [diagRow_succ]
        simp only [dpRow, if_pos hdiag, kvalOf]
        rw [if_neg (by omega : ¬(t + 1 = 0)), Nat.add_sub_cancel]
      rw [hL, hR]
      have hj := ih (j - 1)
      split <;> omega
    · have hL : diagRow s (t + 1 + 1) j = 0 := by
        rw [diagRow_succ]
        simp only [dpRow, if_neg hc]
      rw [hL]
      exact Nat.zero_le _

theorem diagRow_le_dval (s : List Char) :
    ∀ j t, j ≤ t → diagRow s (t + 1) j ≤ dval s j := by
  intro j
  induction j with
  | zero =>
    intro t ht
    by_cases hc : dcondB s s 0 s.length t 0 = true
    · have h00 := dcond_right hc
      have hL : diagRow s (t + 1) 0 = 1 := by
        rw [diagRow_succ]
        simp [dpRow, hc, kvalOf]
      have hR : dval s 0 = 1 := by
        rw [dval]
        simp [diagRow, dpRun, dpRow, h00, kvalOf]
      rw [hL, hR]
    · have hL : diagRow s (t + 1) 0 = 0 := by
        rw [diagRow_succ]
        simp [dpRow, hc]
      rw [hL]
      exact Nat.zero_le _
  | succ j ihj =>
    intro t ht
    rcases Nat.lt_or_ge (j + 1) t with hlt | hge
    · obtain ⟨t', rfl⟩ : ∃ t', t = t' + 1 := ⟨t - 1, by omega⟩
      by_cases hc : dcondB s s 0 s.length (t' + 1) (j + 1) = true
      · have hdd := dcond_right hc
        have hL : diagRow s (t' + 1 + 1) (j + 1) = diagRow s (t' + 1) j + 1 := by
          rw [diagRow_succ]
          simp only [dpRow, if_pos hc, kvalOf]
          rw [if_neg (by omega : ¬(j + 1 = 0)), Nat.add_sub_cancel]
        have hR : dval s (j + 1) = diagRow s (j + 1) j + 1 := by
          rw [dval, diagRow_succ]
          simp only [dpRow, if_pos hdd, kvalOf]
          rw [if_neg (by omega : ¬(j + 1 = 0)), Nat.add_sub_cancel]
        have hjj := ihj t' (by omega)
        rw [dval] at hjj
        rw [hL, hR]
        omega
      · have hL : diagRow s (t' + 1 + 1) (j + 1) = 0 := by
          rw [diagRow_succ]
          simp only [dpRow, if_neg hc]
        rw [hL]
        exact Nat.zero_le _
    · have heq : t = j + 1 := by omega
      subst heq
      exact le_refl _

theorem dval_le_maxDiag (s : List Char) :
    ∀ t j, j < t → dval s j ≤ maxDiag s t := by
  intro t
  induction t with
  | zero => intro j h; omega
  | succ t ih =>
    intro j hj
    rw [maxDiag]
    rcases Nat.lt_or_ge j t with h | h
    · exact le_trans (ih j h) (le_max_left _ _)
    · have hj' : j = t := by omega
      subst hj'
      exact le_max_right _ _

theorem diagBest_diag (s : List Char) :
    ∀ t, t ≤ s.length → ∃ p, diagBest s t = (p, p, maxDiag s t) := by
  intro t
  induction t with
  | zero => exact fun _ => ⟨0, rfl⟩
  | succ t ih =>
    intro ht
    obtain ⟨p, hp⟩ := ih (by omega)
    have htn : t < s.length := by omega
    rw [diagBest_succ, hp, rowBest]
    by_cases hcc : dcondB s s 0 s.length t t = true
    · -- the diagonal column participates in row t
      have hdv : dval s t = kvalOf (diagRow s t) t := (kval_eq_row s t t hcc).symm
      have hsplit : List.range s.length =
          (List.range t ++ [t]) ++ List.range' (t + 1) (s.length - (t + 1)) := by
        rw [← List.range_succ, List.range_eq_range', List.range_eq_range']
        have happ := List.range'_append 0 (t + 1) (s.length - (t + 1)) 1
        simp only [Nat.one_mul, Nat.zero_add] at happ
        rw [happ]
        congr 1
        omega
      rw [hsplit, List.foldl_append, List.foldl_append]
      have hpre : List.foldl
          (fun acc j => if dcondB s s 0 s.length t j then
            if acc.2.2 < kvalOf (diagRow s t) j then
              (t + 1 - kvalOf (diagRow s t) j, j + 1 - kvalOf (diagRow s t) j,
                kvalOf (diagRow s t) j)
            else acc
          else acc) (p, p, maxDiag s t) (List.range t) = (p, p, maxDiag s t) := by
        apply foldl_fixed
        intro j hj
        rw [List.mem_range] at hj
        by_cases hc : dcondB s s 0 s.length t j = true
        · have hkv : kvalOf (diagRow s t) j ≤ maxDiag s t := by
            rw [kval_eq_row s t j hc]
            exact le_trans (diagRow_le_dval s j t (by omega))
              (dval_le_maxDiag s t j hj)
          rw [if_pos hc, if_neg (by simpa using Nat.not_lt.mpr hkv)]
        · rw [if_neg hc]
      rw [hpre]
      simp only [List.foldl_cons, List.foldl_nil, if_pos hcc]
      by_cases hMdv : maxDiag s t < kvalOf (diagRow s t) t
      · rw [if_pos hMdv]
        refine ⟨t + 1 - kvalOf (diagRow s t) t, ?_⟩
        have hfix : List.foldl
            (fun acc j => if dcondB s s 0 s.length t j then
              if acc.2.2 < kvalOf (diagRow s t) j then
                (t + 1 - kvalOf (diagRow s t) j, j + 1 - kvalOf (diagRow s t) j,
                  kvalOf (diagRow s t) j)
              else acc
            else acc)
            (t + 1 - kvalOf (diagRow s t) t, t + 1 - kvalOf (diagRow s t) t,
              kvalOf (diagRow s t) t)
            (List.range' (t + 1) (s.length - (t + 1))) =
            (t + 1 - kvalOf (diagRow s t) t, t + 1 - kvalOf (diagRow s t) t,
              kvalOf (diagRow s t) t) := by
          apply foldl_fixed
          intro j hj
          rw [List.mem_range'_1] at hj
          by_cases hc : dcondB s s 0 s.length t j = true
          · have hkv : kvalOf (diagRow s t) j ≤ kvalOf (diagRow s t) t := by
              rw [kval_eq_row s t j hc, ← hdv, dval]
              exact diagRow_le_diag s t j
            rw [if_pos hc, if_neg (Nat.not_lt.mpr hkv)]
          · rw [if_neg hc]
        rw [hfix,
          show kvalOf (diagRow s t) t = maxDiag s (t + 1) from by rw [maxDiag, hdv]; omega]
      · rw [if_neg hMdv]
        refine ⟨p, ?_⟩
        have hfix : List.foldl
            (fun acc j => if dcondB s s 0 s.length t j then
              if acc.2.2 < kvalOf (diagRow s t) j then
                (t + 1 - kvalOf (diagRow s t) j, j + 1 - kvalOf (diagRow s t) j,
                  kvalOf (diagRow s t) j)
              else acc
            else acc) (p, p, maxDiag s t)
            (List.range' (t + 1) (s.length - (t + 1))) = (p, p, maxDiag s t) := by
          apply foldl_fixed
          intro j hj
          by_cases hc : dcondB s s 0 s.length t j = true
          · have hkv : kvalOf (diagRow s t) j ≤ maxDiag s t := by
              have h1 : kvalOf (diagRow s t) j ≤ kvalOf (diagRow s t) t := by
                rw [kval_eq_row s t j hc, ← hdv, dval]
                exact diagRow_le_diag s t j
              omega
            rw [if_pos hc, if_neg (Nat.not_lt.mpr hkv)]
          · rw [if_neg hc]
        rw [hfix,
          show maxDiag s (t + 1) = maxDiag s t from by rw [maxDiag, hdv]; omega]
    · -- row t is empty: nothing changes
      have hdv0 : dval s t = 0 := by
        rw [dval, diagRow_succ]
        simp [dpRow, hcc]
      have hall : List.foldl
          (fun acc j => if dcondB s s 0 s.length t j then
            if acc.2.2 < kvalOf (diagRow s t) j then
              (t + 1 - kvalOf (diagRow s t) j, j + 1 - kvalOf (diagRow s t) j,
                kvalOf (diagRow s t) j)
            else acc
          else acc) (p, p, maxDiag s t) (List.range s.length) = (p, p, maxDiag s t) := by
        apply foldl_fixed
        intro j hj
        by_cases hc : dcondB s s 0 s.length t j = true
        · exact absurd (dcond_left hc) (by simpa using hcc)
        · rw [if_neg hc]
      rw [hall,
        show maxDiag s (t + 1) = maxDiag s t from by rw [maxDiag, hdv0]; omega]
      exact ⟨p, rfl⟩

theorem extendBack_diag (s : List Char) :
    ∀ p k, extendBack s s 0 0 p p k = (0, 0, k + p) := by
  intro p
  induction p with
  | zero => intro k; simp [extendBack]
  | succ p ih =>
    intro k
    rw [extendBack, if_pos ⟨by omega, by omega, by simp⟩]
    simp only [Nat.add_sub_cancel]
    rw [show k + (p + 1) = (k + 1) + p from by omega]
    exact ih (k + 1)

theorem extendFwdF_diag (s : List Char) :
    ∀ fuel k, fuel = s.length - k → k ≤ s.length →
      extendFwdF s s s.length s.length 0 0 fuel k = s.length := by
  intro fuel
  induction fuel with
  | zero =>
    intro k h1 h2
    rw [extendFwdF]
    omega
  | succ fuel ih =>
    intro k h1 h2
    rw [extendFwdF, if_pos ⟨by omega, by omega, rfl⟩]
    exact ih (k + 1) (by omega) (by omega)

theorem flm_diag (s : List Char) :
    findLongestMatch s s 0 s.length 0 s.length = (0, 0, s.length) := by
  obtain ⟨p, hp⟩ := diagBest_diag s (s.length - 0) (by omega)
  have hinv := dpRun_best_inv s s 0 0 s.length (s.length - 0)
  have hple : maxDiag s (s.length - 0) + p ≤ s.length := by
    rcases hinv with hzero | hrich
    · rw [show (dpRun s s 0 0 s.length (s.length - 0)).2 = diagBest s (s.length - 0) from rfl,
        hp] at hzero
      simp only [Prod.mk.injEq] at hzero
      omega
    · rw [show (dpRun s s 0 0 s.length (s.length - 0)).2 = diagBest s (s.length - 0) from rfl,
        hp] at hrich
      dsimp only at hrich
      omega
  rw [findLongestMatch,
    show (dpRun s s 0 0 s.length (s.length - 0)).2 = diagBest s (s.length - 0) from rfl,
    hp]
  simp only
  rw [extendBack_diag s p (maxDiag s (s.length - 0))]
  dsimp only
  rw [extendFwd, extendFwdF_diag s _ _ (by omega) (by omega)]

theorem matchTotal_diag (s : List Char) :
    matchTotal s s 0 s.length 0 s.length = s.length := by
  rcases Nat.eq_zero_or_pos s.length with h0 | hpos
  · rw [matchTotal, h0]
    simp [matchTotalF]
  · rw [matchTotal]
    obtain ⟨m, hm⟩ : ∃ m, (s.length - 0) + (s.length - 0) = m + 1 :=
      ⟨(s.length - 0) + (s.length - 0) - 1, by omega⟩
    rw [hm, matchTotalF]
    simp [flm_diag, hpos.ne']

theorem ratioQ_self (s : List Char) (h : s ≠ []) : ratioQ s s = 1 := by
  have hn : 0 < s.length := List.length_pos.mpr h
  rw [ratioQ, if_neg (by omega), matchTotal_diag]
  have hne : (s.length : ℚ) + (s.length : ℚ) ≠ 0 := by
    have hq : (0 : ℚ) < (s.length : ℚ) := by exact_mod_cast hn
    linarith
  have h2 : 2 * (s.length : ℚ) = (s.length : ℚ) + (s.length : ℚ) := by ring
  rw [h2, div_self hne]

theorem simple_similarity_self (s : String) (h : s ≠ "") : simple_similarity s s = 1 := by
  rw [simple_similarity, if_neg (by simp [h])]
  apply ratioQ_self
  intro hc
  apply h
  have hlen : s.data.length = 0 := by
    have := congrArg List.length hc
    simpa [pyLower] using this
  have hdata : s.data = [] := List.length_eq_zero.mp hlen
  cases s
  rw [show ("" : String) = String.mk [] from rfl]
  exact congrArg String.mk (by simpa using hdata)

/-! ## Match engine lemmas -/

theorem scanRow_mem {t1 t2 : ℚ} {u : PRow} {crm : List NRef} {c : Cand}
    (h : c ∈ scanRow t1 t2 u crm) : c.up = u ∧ c.crm ∈ crm := by
  rw [scanRow, List.mem_filterMap] at h
  obtain ⟨r, hr, hsome⟩ := h
  split at hsome
  · cases hsome
    exact ⟨rfl, hr⟩
  · exact absurd hsome (by simp)

theorem scanRow_iff (t1 t2 : ℚ) (u : PRow) (crm : List NRef) (r : NRef)
    (hr : r ∈ crm) :
    mkCand u r ∈ scanRow t1 t2 u crm ↔
      (t1 ≤ simple_similarity u.normalized_company_name r.normalized_company_name ∧
       t2 ≤ simple_similarity u.normalized_address r.normalized_address) := by
  constructor
  · intro h
    rw [scanRow, List.mem_filterMap] at h
    obtain ⟨r', hr', hsome⟩ := h
    split at hsome
    · next hcond =>
      rw [Option.some.injEq] at hsome
      have hrr : r' = r := congrArg Cand.crm hsome
      rw [hrr] at hcond
      exact hcond
    · exact absurd hsome (by simp)
  · intro h
    rw [scanRow, List.mem_filterMap]
    exact ⟨r, hr, by rw [if_pos h]⟩

theorem rowsLoop_mem (t1 t2 : ℚ) (crm : List NRef) :
    ∀ us r acc c, c ∈ (rowsLoop t1 t2 crm us r acc).1 →
      c ∈ acc ∨ ∃ u ∈ us, c ∈ scanRow t1 t2 u crm := by
  intro us
  induction us with
  | nil =>
    intro r acc c h
    exact Or.inl h
  | cons u us ih =>
    intro r acc c h
    rw [rowsLoop] at h
    split at h
    · exact Or.inl h
    · rcases ih _ _ _ h with hacc | ⟨u', hu', hc⟩
      · rcases List.mem_append.mp hacc with h1 | h2
        · exact Or.inl h1
        · exact Or.inr ⟨u, List.mem_cons_self u us, h2⟩
      · exact Or.inr ⟨u', List.mem_cons_of_mem u hu', hc⟩

theorem rowsLoop_enough (t1 t2 : ℚ) (crm : List NRef) :
    ∀ us r acc, us.length ≤ r →
      rowsLoop t1 t2 crm us r acc =
        (acc ++ (us.map (fun u => scanRow t1 t2 u crm)).flatten, r - us.length) := by
  intro us
  induction us with
  | nil => intro r acc h; simp [rowsLoop]
  | cons u us ih =>
    intro r acc h
    rw [List.length_cons] at h
    rw [rowsLoop, if_neg (by omega)]
    rw [ih (r - 1) (acc ++ scanRow t1 t2 u crm) (by omega)]
    simp only [List.map_cons, List.flatten_cons, List.append_assoc, List.length_cons]
    exact Prod.ext rfl (by dsimp only; omega)

theorem statesLoop_zero (t1 t2 : ℚ) (df : List PRow)
    (fetch : String → Option (List RRef)) :
    ∀ ss acc, statesLoop t1 t2 df fetch ss 0 acc = (acc, 0) := by
  intro ss acc
  cases ss <;> simp [statesLoop]

theorem statesLoop_mem (t1 t2 : ℚ) (df : List PRow)
    (fetch : String → Option (List RRef)) :
    ∀ ss r acc c, c ∈ (statesLoop t1 t2 df fetch ss r acc).1 →
      c ∈ acc ∨ ∃ s ∈ ss, ∃ refs, fetch s = some refs ∧
        ∃ u ∈ df.filter (fun u => u.state_abbrev = s),
          c ∈ scanRow t1 t2 u (refs.map addNorm) := by
  intro ss
  induction ss with
  | nil =>
    intro r acc c h
    exact Or.inl h
  | cons s ss ih =>
    intro r acc c h
    rw [statesLoop] at h
    split at h
    · exact Or.inl h
    · rcases hf : fetch s with - | refs <;> rw [hf] at h <;> dsimp only at h
      · rcases ih _ _ _ h with hacc | ⟨s', hs', rest⟩
        · exact Or.inl hacc
        · exact Or.inr ⟨s', List.mem_cons_of_mem s hs', rest⟩
      · split at h
        · rcases ih _ _ _ h with hacc | ⟨s', hs', rest⟩
          · exact Or.inl hacc
          · exact Or.inr ⟨s', List.mem_cons_of_mem s hs', rest⟩
        · rcases ih _ _ _ h with hacc | ⟨s', hs', rest⟩
          · rcases rowsLoop_mem t1 t2 (refs.map addNorm) _ _ _ _ hacc with h1 | ⟨u, hu, hc⟩
            · exact Or.inl h1
            · exact Or.inr ⟨s, List.mem_cons_self s ss, refs, hf, u, hu, hc⟩
          · exact Or.inr ⟨s', List.mem_cons_of_mem s hs', rest⟩

theorem statesLoop_enough (t1 t2 : ℚ) (df : List PRow)
    (fetch : String → Option (List RRef)) :
    ∀ ss r acc, checksSum df fetch ss ≤ r →
      statesLoop t1 t2 df fetch ss r acc =
        (acc ++ (ss.map (partCands t1 t2 df fetch)).flatten,
          r - checksSum df fetch ss) := by
  intro ss
  induction ss with
  | nil => intro r acc h; simp [statesLoop, checksSum]
  | cons s ss ih =>
    intro r acc h
    rw [checksSum] at h
    have hco : 1 ≤ checksOf df fetch s := by rw [checksOf]; omega
    rw [statesLoop, if_neg (by omega)]
    rcases hf : fetch s with - | refs
    · dsimp only
      have hcoeq : checksOf df fetch s = 1 := by simp [checksOf, hf]
      have hpc : partCands t1 t2 df fetch s = [] := by simp [partCands, hf]
      rw [ih (r - 1) acc (by omega)]
      simp only [List.map_cons, List.flatten_cons, hpc, List.nil_append, checksSum]
      exact Prod.ext rfl (by dsimp only; omega)
    · dsimp only
      by_cases he : refs.isEmpty
      · rw [if_pos he]
        have hcoeq : checksOf df fetch s = 1 := by simp [checksOf, hf, he]
        have hpc : partCands t1 t2 df fetch s = [] := by simp [partCands, hf, he]
        rw [ih (r - 1) acc (by omega)]
        simp only [List.map_cons, List.flatten_cons, hpc, List.nil_append, checksSum]
        exact Prod.ext rfl (by dsimp only; omega)
      · rw [if_neg he]
        have hcoeq : checksOf df fetch s =
            1 + (df.filter (fun u => u.state_abbrev = s)).length := by
          simp [checksOf, hf, he]
        have hpc : partCands t1 t2 df fetch s =
            ((df.filter (fun u => u.state_abbrev = s)).map
              (fun u => scanRow t1 t2 u (refs.map addNorm))).flatten := by
          simp [partCands, hf, he]
        rw [rowsLoop_enough t1 t2 (refs.map addNorm)
          (df.filter (fun u => u.state_abbrev = s)) (r - 1) acc (by omega)]
        rw [ih _ _ (by omega)]
        simp only [List.map_cons, List.flatten_cons, hpc, List.append_assoc, checksSum]
        exact Prod.ext rfl (by dsimp only; omega)

theorem statesLoop_boundary (t1 t2 : ℚ) (df : List PRow)
    (fetch : String → Option (List RRef)) :
    ∀ p ss acc, p ≤ ss.length →
      statesLoop t1 t2 df fetch ss (checksSum df fetch (ss.take p)) acc =
        (acc ++ ((ss.take p).map (partCands t1 t2 df fetch)).flatten, 0) := by
  intro p
  induction p with
  | zero =>
    intro ss acc h
    simp only [List.take_zero, checksSum, List.map_nil, List.flatten_nil,
      List.append_nil]
    exact statesLoop_zero t1 t2 df fetch ss acc
  | succ p ih =>
    intro ss acc h
    cases ss with
    | nil => simp at h
    | cons s ss =>
      rw [List.length_cons] at h
      simp only [List.take_succ_cons]
      rw [checksSum]
      have hco : 1 ≤ checksOf df fetch s := by rw [checksOf]; omega
      rw [statesLoop, if_neg (by omega)]
      rcases hf : fetch s with - | refs
      · dsimp only
        have hcoeq : checksOf df fetch s = 1 := by simp [checksOf, hf]
        have hpc : partCands t1 t2 df fetch s = [] := by simp [partCands, hf]
        have hbudget : checksOf df fetch s + checksSum df fetch (ss.take p) - 1 =
            checksSum df fetch (ss.take p) := by omega
        rw [hbudget, ih ss acc (by omega)]
        simp only [List.map_cons, List.flatten_cons, hpc, List.nil_append]
      · dsimp only
        by_cases he : refs.isEmpty
        · rw [if_pos he]
          have hcoeq : checksOf df fetch s = 1 := by simp [checksOf, hf, he]
          have hpc : partCands t1 t2 df fetch s = [] := by simp [partCands, hf, he]
          have hbudget : checksOf df fetch s + checksSum df fetch (ss.take p) - 1 =
              checksSum df fetch (ss.take p) := by omega
          rw [hbudget, ih ss acc (by omega)]
          simp only [List.map_cons, List.flatten_cons, hpc, List.nil_append]
        · rw [if_neg he]
          have hcoeq : checksOf df fetch s =
              1 + (df.filter (fun u => u.state_abbrev = s)).length := by
            simp [checksOf, hf, he]
          have hpc : partCands t1 t2 df fetch s =
              ((df.filter (fun u => u.state_abbrev = s)).map
                (fun u => scanRow t1 t2 u (refs.map addNorm))).flatten := by
            simp [partCands, hf, he]
          rw [rowsLoop_enough t1 t2 (refs.map addNorm)
            (df.filter (fun u => u.state_abbrev = s))
            (checksOf df fetch s + checksSum df fetch (ss.take p) - 1) acc (by omega)]
          have hbudget : checksOf df fetch s + checksSum df fetch (ss.take p) - 1 -
              (df.filter (fun u => u.state_abbrev = s)).length =
              checksSum df fetch (ss.take p) := by omega
          rw [hbudget, ih ss _ (by omega)]
          simp only [List.map_cons, List.flatten_cons, hpc, List.append_assoc]

theorem processRun_complete (df : List PRow) (fetch : String → Option (List RRef))
    (t1 t2 : ℚ) (t : Nat)
    (h : checksSum df fetch (uniqueFirst (df.map (fun u => u.state_abbrev))) + 1 ≤ t) :
    (processRun df fetch t1 t2 t).stored =
      ((uniqueFirst (df.map (fun u => u.state_abbrev))).map
        (partCands t1 t2 df fetch)).flatten := by
  rw [processRun]
  simp only
  rw [statesLoop_enough t1 t2 df fetch _ t [] (by omega)]
  simp only [List.nil_append]
  rw [if_neg (by omega)]

theorem processRun_boundary (df : List PRow) (fetch : String → Option (List RRef))
    (t1 t2 : ℚ) (p : Nat)
    (h : p ≤ (uniqueFirst (df.map (fun u => u.state_abbrev))).length) :
    (processRun df fetch t1 t2
        (checksSum df fetch
          ((uniqueFirst (df.map (fun u => u.state_abbrev))).take p))).stored = [] ∧
    (processRun df fetch t1 t2
        (checksSum df fetch
          ((uniqueFirst (df.map (fun u => u.state_abbrev))).take p))).accum
      = (((uniqueFirst (df.map (fun u => u.state_abbrev))).take p).map
          (partCands t1 t2 df fetch)).flatten := by
  rw [processRun]
  simp only
  rw [statesLoop_boundary t1 t2 df fetch p _ [] h]
  refine ⟨?_, ?_⟩ <;> simp

theorem processRun_accum_mem (df : List PRow) (fetch : String → Option (List RRef))
    (t1 t2 : ℚ) (t : Nat) (c : Cand)
    (h : c ∈ (processRun df fetch t1 t2 t).accum) :
    ∃ refs, fetch c.up.state_abbrev = some refs ∧
      c.crm ∈ refs.map addNorm ∧ c.up ∈ df := by
  rw [processRun] at h
  simp only at h
  rcases statesLoop_mem t1 t2 df fetch _ _ _ _ h with hacc | ⟨s, -, refs, hf, u, hu, hc⟩
  · exact absurd hacc (List.not_mem_nil c)
  · obtain ⟨hup, hcrm⟩ := scanRow_mem hc
    rw [List.mem_filter] at hu
    have hs : u.state_abbrev = s := by simpa using hu.2
    refine ⟨refs, ?_, hcrm, ?_⟩
    · rw [hup, hs]
      exact hf
    · rw [hup]
      exact hu.1

/-! ## Normalizer lemmas -/

theorem pyUpperChar_idem (c : Char) : pyUpperChar (pyUpperChar c) = pyUpperChar c := by
  by_cases h1 : c = 'a'
  · subst h1; decide
  by_cases h2 : c = 'b'
  · subst h2; decide
  by_cases h3 : c = 'c'
  · subst h3; decide
  by_cases h4 : c = 'd'
  · subst h4; decide
  by_cases h5 : c = 'e'
  · subst h5; decide
  by_cases h6 : c = 'f'
  · subst h6; decide
  by_cases h7 : c = 'g'
  · subst h7; decide
  by_cases h8 : c = 'h'
  · subst h8; decide
  by_cases h9 : c = 'i'
  · subst h9; decide
  by_cases h10 : c = 'j'
  · subst h10; decide
  by_cases h11 : c = 'k'
  · subst h11; decide
  by_cases h12 : c = 'l'
  · subst h12; decide
  by_cases h13 : c = 'm'
  · subst h13; decide
  by_cases h14 : c = 'n'
  · subst h14; decide
  by_cases h15 : c = 'o'
  · subst h15; decide
  by_cases h16 : c = 'p'
  · subst h16; decide
  by_cases h17 : c = 'q'
  · subst h17; decide
  by_cases h18 : c = 'r'
  · subst h18; decide
  by_cases h19 : c = 's'
  · subst h19; decide
  by_cases h20 : c = 't'
  · subst h20; decide
  by_cases h21 : c = 'u'
  · subst h21; decide
  by_cases h22 : c = 'v'
  · subst h22; decide
  by_cases h23 : c = 'w'
  · subst h23; decide
  by_cases h24 : c = 'x'
  · subst h24; decide
  by_cases h25 : c = 'y'
  · subst h25; decide
  by_cases h26 : c = 'z'
  · subst h26; decide
  simp only [pyUpperChar, if_neg h1, if_neg h2, if_neg h3, if_neg h4, if_neg h5, if_neg h6, if_neg h7, if_neg h8, if_neg h9, if_neg h10, if_neg h11, if_neg h12, if_neg h13, if_neg h14, if_neg h15, if_neg h16, if_neg h17, if_neg h18, if_neg h19, if_neg h20, if_neg h21, if_neg h22, if_neg h23, if_neg h24, if_neg h25, if_neg h26]

theorem mem_collapseAux :
    ∀ (b : Bool) (l : List Char) (c : Char), c ∈ collapseAux b l → c = ' ' ∨ c ∈ l := by
  intro b l
  induction l generalizing b with
  | nil => intro c h; simp [collapseAux] at h
  | cons x rest ih =>
    intro c h
    rw [collapseAux] at h
    split at h
    · split at h
      · rcases ih true c h with h1 | h2
        · exact Or.inl h1
        · exact Or.inr (List.mem_cons_of_mem x h2)
      · rcases List.mem_cons.mp h with h1 | h2
        · exact Or.inl h1
        · rcases ih true c h2 with h3 | h4
          · exact Or.inl h3
          · exact Or.inr (List.mem_cons_of_mem x h4)
    · rcases List.mem_cons.mp h with h1 | h2
      · exact Or.inr (h1 ▸ List.mem_cons_self x rest)
      · rcases ih false c h2 with h3 | h4
        · exact Or.inl h3
        · exact Or.inr (List.mem_cons_of_mem x h4)

theorem mem_collapseWS {l : List Char} {c : Char} (h : c ∈ collapseWS l) :
    c = ' ' ∨ c ∈ l :=
  mem_collapseAux false l c h

theorem mem_pyStrip {l : List Char} {c : Char} (h : c ∈ pyStrip l) : c ∈ l := by
  rw [pyStrip, dropTrail] at h
  rw [List.mem_reverse] at h
  have h1 := (List.dropWhile_sublist isPySpace).mem h
  rw [List.mem_reverse] at h1
  exact (List.dropWhile_sublist isPySpace).mem h1

theorem eq_empty_of_data_len {s : String} (h : s.data.length = 0) : s = "" := by
  have hdata : s.data = [] := List.length_eq_zero.mp h
  cases s
  rw [show ("" : String) = String.mk [] from rfl]
  exact congrArg String.mk (by simpa using hdata)

theorem normalize_text_chars (x : String) :
    ∀ c ∈ (normalize_text x).data,
      (isWordChar c || isPySpace c) = true ∧ pyUpperChar c = c := by
  intro c hc
  rw [normalize_text] at hc
  split at hc
  · rw [show ("" : String).data = [] from rfl] at hc
    exact absurd hc (List.not_mem_nil c)
  · rw [show (String.mk (stripPunct (collapseWS (pyStrip (pyUpper x.data))))).data =
      stripPunct (collapseWS (pyStrip (pyUpper x.data))) from rfl] at hc
    rw [stripPunct, List.mem_filter] at hc
    refine ⟨hc.2, ?_⟩
    rcases mem_collapseWS hc.1 with hsp | hmem
    · subst hsp; decide
    · have hup := mem_pyStrip hmem
      rw [pyUpper, List.mem_map] at hup
      obtain ⟨c0, -, hc0⟩ := hup
      rw [← hc0]
      exact pyUpperChar_idem c0

theorem pyUpper_fixed (l : List Char) (h : ∀ c ∈ l, pyUpperChar c = c) :
    pyUpper l = l := by
  rw [pyUpper]
  induction l with
  | nil => rfl
  | cons x rest ih =>
    rw [List.map_cons, h x (List.mem_cons_self x rest),
      ih (fun c hc => h c (List.mem_cons_of_mem x hc))]

theorem normalize_text_twice (x : String) :
    normalize_text (normalize_text x) =
      String.mk (collapseWS (pyStrip (normalize_text x).data)) := by
  by_cases hx : normalize_text x = ""
  · rw [hx]
    rfl
  · rw [normalize_text, if_neg hx]
    have hup : pyUpper (normalize_text x).data = (normalize_text x).data :=
      pyUpper_fixed _ (fun c hc => (normalize_text_chars x c hc).2)
    rw [hup]
    congr 1
    rw [stripPunct]
    apply List.filter_eq_self.mpr
    intro c hc
    rcases mem_collapseWS hc with hsp | hmem
    · subst hsp; decide
    · exact (normalize_text_chars x c (mem_pyStrip hmem)).1

/-! ## Concrete run helpers -/

theorem scanRow_zero_pair (u : PRow) (r : NRef) :
    scanRow 0 0 u [r] = [mkCand u r] := by
  simp [scanRow, simple_similarity_nonneg]

theorem statesA_eq :
    uniqueFirst ((rawsA.map preprocess).map (fun u => u.state_abbrev)) =
      ["CA", "TX", "NY"] := by decide

theorem checksA1 :
    checksSum (rawsA.map preprocess) fetchA
      ((uniqueFirst ((rawsA.map preprocess).map (fun u => u.state_abbrev))).take 1) = 2 := by
  decide

theorem filterA_CA :
    (rawsA.map preprocess).filter (fun u => u.state_abbrev = "CA") =
      [preprocess uCA] := by decide

theorem partA_CA :
    partCands 0 0 (rawsA.map preprocess) fetchA "CA" =
      [mkCand (preprocess uCA) (addNorm refCA)] := by
  rw [partCands, show fetchA "CA" = some [refCA] from rfl]
  dsimp only
  rw [if_neg (by decide), filterA_CA]
  simp [scanRow_zero_pair]

theorem storedA : (processAll rawsA fetchA 0 0 2).stored = [] := by
  have hb := processRun_boundary (rawsA.map preprocess) fetchA 0 0 1 (by decide)
  rw [checksA1] at hb
  exact hb.1

theorem accumA :
    (processAll rawsA fetchA 0 0 2).accum =
      [mkCand (preprocess uCA) (addNorm refCA)] := by
  have hb := processRun_boundary (rawsA.map preprocess) fetchA 0 0 1 (by decide)
  rw [checksA1] at hb
  rw [show processAll rawsA fetchA 0 0 2 =
    processRun (rawsA.map preprocess) fetchA 0 0 2 from rfl]
  rw [hb.2, statesA_eq]
  simp [partA_CA]

/-! ## The claims -/

/-- C1, counterexample: in the cancellation scenario of the claim (three
partitions, the flag cleared right after partition 1 of CA, TX, NY has
completed, partition 1 producing one candidate), the run's stored
result is the empty list, not partition 1's candidates. -/
theorem claim_C1_cex :
    (processAll rawsA fetchA 0 0 2).stored = [] ∧
    (processAll rawsA fetchA 0 0 2).accum ≠ [] := by
  refine ⟨storedA, ?_⟩
  rw [accumA]
  simp

/-- C1, amended: when cancellation is signalled after p partitions have
completed, the engine does stop at the next cancellation check, having
locally accumulated exactly those p partitions' candidates; but the
guarded store then skips, so the run's stored result
(st.session_state.matches) is the empty list set when the run started -
the accumulated candidates are discarded, not returned. -/
theorem claim_C1 (raws : List URow) (fetch : String → Option (List RRef))
    (t1 t2 : ℚ) (p : Nat)
    (h : p ≤ (uniqueFirst ((raws.map preprocess).map (fun u => u.state_abbrev))).length) :
    (processAll raws fetch t1 t2
        (checksSum (raws.map preprocess) fetch
          ((uniqueFirst ((raws.map preprocess).map (fun u => u.state_abbrev))).take p))).stored
      = [] ∧
    (processAll raws fetch t1 t2
        (checksSum (raws.map preprocess) fetch
          ((uniqueFirst ((raws.map preprocess).map (fun u => u.state_abbrev))).take p))).accum
      = (((uniqueFirst ((raws.map preprocess).map (fun u => u.state_abbrev))).take p).map
          (partCands t1 t2 (raws.map preprocess) fetch)).flatten :=
  processRun_boundary (raws.map preprocess) fetch t1 t2 p h

/-- Witness for C1 at the concrete three-partition run, cancelled after
the first partition. -/
theorem claim_C1_witness :
    (processAll rawsA fetchA 0 0
        (checksSum (rawsA.map preprocess) fetchA
          ((uniqueFirst ((rawsA.map preprocess).map (fun u => u.state_abbrev))).take 1))).stored
      = [] ∧
    (processAll rawsA fetchA 0 0
        (checksSum (rawsA.map preprocess) fetchA
          ((uniqueFirst ((rawsA.map preprocess).map (fun u => u.state_abbrev))).take 1))).accum
      = (((uniqueFirst ((rawsA.map preprocess).map (fun u => u.state_abbrev))).take 1).map
          (partCands 0 0 (rawsA.map preprocess) fetchA)).flatten :=
  claim_C1 rawsA fetchA 0 0 1 (by decide)

/-- C2, counterexample: normalize_text is not idempotent; stripping the
comma of a comma-between-spaces input leaves a double space that a
second application collapses. -/
theorem claim_C2_cex :
    normalize_text (normalize_text "A , B") ≠ normalize_text "A , B" := by decide

/-- C2, amended: neither normalizer is idempotent.  A second application
of normalize_text equals re-collapsing and re-trimming the whitespace
of the first result (so idempotence fails exactly when punctuation
stripping leaves extra whitespace), and normalize_address can create a
fresh abbreviation target by deleting punctuation, as on STRE.ET. -/
theorem claim_C2 :
    (∀ x : String, normalize_text (normalize_text x) =
      String.mk (collapseWS (pyStrip (normalize_text x).data))) ∧
    normalize_address "STRE.ET" = "STREET" ∧
    normalize_address (normalize_address "STRE.ET") = "ST" :=
  ⟨normalize_text_twice, by decide, by decide⟩

/-- C3: in the pairwise scan over one CRM partition, a candidate for a
reference record is emitted exactly when both similarity scores reach
their thresholds, both comparisons inclusive. -/
theorem claim_C3 (t1 t2 : ℚ) (u : PRow) (crm : List NRef) (r : NRef)
    (hr : r ∈ crm) :
    mkCand u r ∈ scanRow t1 t2 u crm ↔
      (t1 ≤ simple_similarity u.normalized_company_name r.normalized_company_name ∧
       t2 ≤ simple_similarity u.normalized_address r.normalized_address) :=
  scanRow_iff t1 t2 u crm r hr

/-- Witness for C3 at the boundary: both similarities equal 1 and both
thresholds equal 1, and the candidate is emitted. -/
theorem claim_C3_witness :
    mkCand (preprocess uCA) (addNorm refCA) ∈
      scanRow 1 1 (preprocess uCA) [addNorm refCA] := by
  apply (claim_C3 1 1 (preprocess uCA) [addNorm refCA] (addNorm refCA)
    (List.mem_cons_self _ _)).mpr
  constructor
  · rw [show (preprocess uCA).normalized_company_name = "AB" from by decide,
      show (addNorm refCA).normalized_company_name = "AB" from by decide,
      simple_similarity_self "AB" (by decide)]
  · rw [show (preprocess uCA).normalized_address = "CD" from by decide,
      show (addNorm refCA).normalized_address = "CD" from by decide,
      simple_similarity_self "CD" (by decide)]

/-- C4: every candidate a run accumulates pairs an uploaded record with
a reference record fetched for that record's own canonical state code
(state_abbrev, derived by convert_state_to_abbrev from its raw state),
so records of different canonical states are never compared against
another state's partition. -/
theorem claim_C4 (raws : List URow) (fetch : String → Option (List RRef))
    (t1 t2 : ℚ) (t : Nat) (c : Cand)
    (h : c ∈ (processAll raws fetch t1 t2 t).accum) :
    c.up.state_abbrev = convert_state_to_abbrev c.up.companyState ∧
    ∃ refs, fetch c.up.state_abbrev = some refs ∧ c.crm ∈ refs.map addNorm := by
  obtain ⟨refs, hf, hcrm, hup⟩ :=
    processRun_accum_mem (raws.map preprocess) fetch t1 t2 t c h
  rcases List.mem_map.mp hup with ⟨r0, -, hpre⟩
  refine ⟨?_, refs, hf, hcrm⟩
  rw [← hpre]
  rfl

/-- Witness for C4 at the concrete run's single candidate. -/
theorem claim_C4_witness :
    (mkCand (preprocess uCA) (addNorm refCA)).up.state_abbrev =
      convert_state_to_abbrev (mkCand (preprocess uCA) (addNorm refCA)).up.companyState ∧
    ∃ refs, fetchA (mkCand (preprocess uCA) (addNorm refCA)).up.state_abbrev = some refs ∧
      (mkCand (preprocess uCA) (addNorm refCA)).crm ∈ refs.map addNorm :=
  claim_C4 rawsA fetchA 0 0 2 (mkCand (preprocess uCA) (addNorm refCA))
    (by rw [accumA]; exact List.mem_cons_self _ _)

/-- C5, counterexample: the scorer is not symmetric; difflib's
block-finding is direction-dependent (the known tide versus diet pair
scores one quarter one way and one half the other). -/
theorem claim_C5_cex :
    simple_similarity "tide" "diet" ≠ simple_similarity "diet" "tide" := by
  have h1 : matchTotal (pyLower "tide".data) (pyLower "diet".data) 0
      (pyLower "tide".data).length 0 (pyLower "diet".data).length = 1 := by decide
  have h2 : matchTotal (pyLower "diet".data) (pyLower "tide".data) 0
      (pyLower "diet".data).length 0 (pyLower "tide".data).length = 2 := by decide
  have hl1 : (pyLower "tide".data).length = 4 := by decide
  have hl2 : (pyLower "diet".data).length = 4 := by decide
  have e1 : simple_similarity "tide" "diet" = 1 / 4 := by
    rw [simple_similarity, if_neg (by decide), ratioQ, h1, hl1, hl2,
      if_neg (by decide)]
    norm_num
  have e2 : simple_similarity "diet" "tide" = 1 / 2 := by
    rw [simple_similarity, if_neg (by decide), ratioQ, h2, hl2, hl1,
      if_neg (by decide)]
    norm_num
  rw [e1, e2]
  norm_num

/-- C5, amended: the scorer is symmetric when the two arguments are
equal after the scorer's own lowering, and when either argument is
empty; full symmetry fails in general. -/
theorem claim_C5 :
    (∀ a b : String, pyLower a.data = pyLower b.data →
      simple_similarity a b = simple_similarity b a) ∧
    (∀ a b : String, a = "" ∨ b = "" →
      simple_similarity a b = simple_similarity b a) := by
  constructor
  · intro a b h
    by_cases ha : a = ""
    · subst ha
      have hb : b = "" := by
        apply eq_empty_of_data_len
        have hlen := congrArg List.length h
        rw [show pyLower ("" : String).data = [] from rfl] at hlen
        rw [pyLower, List.length_map] at hlen
        exact hlen.symm
      subst hb
      rfl
    · by_cases hb : b = ""
      · subst hb
        exfalso
        apply ha
        apply eq_empty_of_data_len
        have hlen := congrArg List.length h
        rw [show pyLower ("" : String).data = [] from rfl] at hlen
        rw [pyLower, List.length_map] at hlen
        exact hlen
      · rw [simple_similarity, simple_similarity, if_neg (by simp [ha, hb]),
          if_neg (by simp [ha, hb]), h]
  · intro a b h
    rw [simple_similarity_empty a b h, simple_similarity_empty b a h.symm]

/-- Witness for C5 as amended: a case-twin pair scores symmetrically,
and an empty argument scores symmetrically. -/
theorem claim_C5_witness :
    simple_similarity "Ab" "aB" = simple_similarity "aB" "Ab" ∧
    simple_similarity "" "q" = simple_similarity "q" "" :=
  ⟨claim_C5.1 "Ab" "aB" (by decide), claim_C5.2 "" "q" (Or.inl rfl)⟩

/-- C6, counterexample: the company-name normalizer performs no
abbreviation substitution, so it does not map the spec's example to
123 MAIN ST. -/
theorem claim_C6_cex :
    normalize_text "  123   Main   Street  " ≠ "123 MAIN ST" := by decide

/-- C6, amended: the address normalizer maps the example to 123 MAIN ST
with word-boundary substitutions (STREETER is untouched); the
company-name normalizer uppercases, collapses and strips punctuation
only, giving 123 MAIN STREET. -/
theorem claim_C6 :
    normalize_address "  123   Main   Street  " = "123 MAIN ST" ∧
    normalize_address "STREETER" = "STREETER" ∧
    normalize_text "  123   Main   Street  " = "123 MAIN STREET" :=
  ⟨by decide, by decide, by decide⟩

/-- C7: the scorer returns a rational in the unit interval, returns
exactly 0 when either argument is empty, and returns exactly 1 on any
nonempty string compared with itself (the lowering makes the two sides
identical, and the full diagonal block is found). -/
theorem claim_C7 (s1 s2 : String) :
    (0 ≤ simple_similarity s1 s2 ∧ simple_similarity s1 s2 ≤ 1) ∧
    (s1 = "" ∨ s2 = "" → simple_similarity s1 s2 = 0) ∧
    (s1 ≠ "" → simple_similarity s1 s1 = 1) :=
  ⟨⟨simple_similarity_nonneg s1 s2, simple_similarity_le_one s1 s2⟩,
   fun h => simple_similarity_empty s1 s2 h,
   fun h => simple_similarity_self s1 h⟩

/-- Witness for C7: the empty rule and the reflexivity rule at concrete
strings. -/
theorem claim_C7_witness :
    simple_similarity "" "x" = 0 ∧ simple_similarity "ab" "ab" = 1 :=
  ⟨(claim_C7 "" "x").2.1 (Or.inl rfl), (claim_C7 "ab" "x").2.2 (by decide)⟩

/-- C8: an uncancelled run stores the concatenation of every
partition's candidates in partition order, and a partition whose fetch
fails (the caught exception, modelled by none) contributes the empty
candidate list, so the other partitions' candidates all survive. -/
theorem claim_C8 (raws : List URow) (fetch : String → Option (List RRef))
    (t1 t2 : ℚ) (t : Nat)
    (h : checksSum (raws.map preprocess) fetch
        (uniqueFirst ((raws.map preprocess).map (fun u => u.state_abbrev))) + 1 ≤ t) :
    (processAll raws fetch t1 t2 t).stored =
      ((uniqueFirst ((raws.map preprocess).map (fun u => u.state_abbrev))).map
        (partCands t1 t2 (raws.map preprocess) fetch)).flatten ∧
    ∀ s, fetch s = none → partCands t1 t2 (raws.map preprocess) fetch s = [] := by
  refine ⟨processRun_complete (raws.map preprocess) fetch t1 t2 t h, ?_⟩
  intro s hs
  rw [partCands, hs]

/-- Witness for C8: the TX fetch fails and the CA fetch succeeds; the
stored result is the per-partition concatenation, with TX contributing
nothing. -/
theorem claim_C8_witness :
    (processAll rawsB fetchB 0 0 10).stored =
      ((uniqueFirst ((rawsB.map preprocess).map (fun u => u.state_abbrev))).map
        (partCands 0 0 (rawsB.map preprocess) fetchB)).flatten ∧
    partCands 0 0 (rawsB.map preprocess) fetchB "TX" = [] :=
  ⟨(claim_C8 rawsB fetchB 0 0 10 (by decide)).1,
   (claim_C8 rawsB fetchB 0 0 10 (by decide)).2 "TX" (by decide)⟩

/-- C9: the state canonicalizer returns empty input unchanged, returns
any input that cleans to two characters as that cleaned value without
validation, passes unrecognized names through after lookup in the fixed
51-entry table, and maps the spec's examples as stated. -/
theorem claim_C9 :
    convert_state_to_abbrev "" = "" ∧
    (∀ s : String, (stateClean s).length = 2 →
      convert_state_to_abbrev s = stateClean s) ∧
    (∀ s : String, s ≠ "" → (stateClean s).length ≠ 2 →
      STATE_MAPPING.lookup (stateClean s) = none →
      convert_state_to_abbrev s = stateClean s) ∧
    STATE_MAPPING.length = 51 ∧
    convert_state_to_abbrev "California" = "CA" ∧
    convert_state_to_abbrev "ca" = "CA" ∧
    convert_state_to_abbrev "Neverland" = "NEVERLAND" := by
  refine ⟨rfl, ?_, ?_, by decide, by decide, by decide, by decide⟩
  · intro s h
    by_cases hs : s = ""
    · rw [hs] at h
      exact absurd h (by decide)
    · rw [convert_state_to_abbrev, if_neg hs]
      dsimp only
      rw [if_pos h]
  · intro s hs h2 hl
    rw [convert_state_to_abbrev, if_neg hs]
    dsimp only
    rw [if_neg h2, hl]
    rfl

/-- Witness for C9: the two-letter rule at ca and the pass-through rule
at Neverland. -/
theorem claim_C9_witness :
    convert_state_to_abbrev "ca" = stateClean "ca" ∧
    convert_state_to_abbrev "Neverland" = stateClean "Neverland" :=
  ⟨claim_C9.2.1 "ca" (by decide),
   claim_C9.2.2.1 "Neverland" (by decide) (by decide) (by decide)⟩

/-- C10: the company-name normalizer leaves street words unexpanded,
can leave consecutive spaces after punctuation stripping, and is
exactly the normalizer applied to companyName on both the uploaded and
the CRM side. -/
theorem claim_C10 :
    normalize_text "123 Main Street" = "123 MAIN STREET" ∧
    normalize_text "A , B" = "A  B" ∧
    (∀ r : URow, (preprocess r).normalized_company_name =
      normalize_text r.companyName) ∧
    (∀ rr : RRef, (addNorm rr).normalized_company_name =
      normalize_text rr.companyName) :=
  ⟨by decide, by decide, fun r => rfl, fun rr => rfl⟩

end SnowMatch
